import Mathlib

/-
Verification of the generic ranking-metric core of pyltr
(pyltr/metrics/_metrics.py): the swap-delta engine, the lambda/hessian
engine and the query-grouped aggregators of the base class `Metric`.

Modelling conventions.  Python floats are modelled by an arbitrary linear
ordered field `R` (instantiated with `ℚ` in concrete runs);
`scipy.special.expit` is an explicit function parameter `expit : R → R`;
numpy arrays are `List R`; the numpy matrix `deltas` is a total function
`ℕ → ℕ → R` that is zero outside the written entries.  The in-place
mutation of the `targets` array performed by `calc_swap_deltas` is made
explicit: the engine threads the list state through its loop and returns
the final state of the array next to the delta matrix.  A Python
`AssertionError` in `calc_lambdas_deltas` is modelled by `Option`
(`none` = the assertion fired); a metric whose `evaluate` can raise an
arbitrary exception is modelled separately by `MetricE`, whose `evaluate`
returns an `Except`.

The sorting and grouping utilities (pyltr/util/sort.py and
pyltr/util/group.py) are not part of the sources; they are modelled from
the spec, and each such definition is marked `Modelled from the spec`.
-/

namespace Pyltr

/-- A concrete pyltr metric as seen by the base-class algorithms: its
`evaluate(qid, targets)` method (a pure function of its inputs, per the
spec) and the value returned by its `max_k()` method (`none` is the
base-class default, meaning no cutoff). -/
structure Metric (Q R : Type) where
  evaluate : Q → List R → R
  max_k : Option ℕ := none

/-- A metric whose `evaluate` may raise a Python exception, modelled by
`Except E`.  Used to examine the exception behaviour of
`calc_swap_deltas` (claim C3). -/
structure MetricE (Q R E : Type) where
  evaluate : Q → List R → Except E R
  max_k : Option ℕ := none

/-- Effective cutoff computed at lines 61-63 (and again at lines 103-105)
of _metrics.py: `if max_k is None or n_targets < max_k: max_k =
n_targets`. -/
def effMaxK (mk : Option ℕ) (n : ℕ) : ℕ :=
  match mk with
  | none => n
  | some k => if n < k then n else k

/-- The cutoff exactly as claim C1 words it: `max_k()` when `max_k()` is
defined and less than `n`, and `n` otherwise. -/
def specK (mk : Option ℕ) (n : ℕ) : ℕ :=
  match mk with
  | none => n
  | some k => if k < n then k else n

section SwapEngine

variable {Q R E : Type} [LinearOrderedField R]

/-- Effect on a list of the in-place exchange performed at lines 67-69 of
_metrics.py (and undone at lines 71-73): `tmp = targets[i]; targets[i] =
targets[j]; targets[j] = tmp`. -/
def swapAt (l : List R) (i j : ℕ) : List R :=
  (l.set i (l.getD j 0)).set j (l.getD i 0)

/-- Writing entry (i, j) of the numpy matrix `deltas`. -/
def setMat (d : ℕ → ℕ → R) (i j : ℕ) (v : R) : ℕ → ℕ → R :=
  Function.update d i (Function.update (d i) j v)

/-- Index pairs visited by the nested loops `for i in range(K): for j in
range(i + 1, n)`, in visiting order. -/
def pairsList (K n : ℕ) : List (ℕ × ℕ) :=
  (List.range K).flatMap (fun i => (List.range' (i + 1) (n - (i + 1))).map (fun j => (i, j)))

/-- Body of `calc_swap_deltas` (lines 65-73 of _metrics.py), one step per
visited pair: swap `targets[i]` and `targets[j]` in place, record
`evaluate(qid, targets) - original` at (i, j), swap back.  The current
state of the mutated `targets` array is threaded through explicitly. -/
def swapLoop (m : Metric Q R) (qid : Q) (original : R) :
    List (ℕ × ℕ) → List R × (ℕ → ℕ → R) → List R × (ℕ → ℕ → R)
  | [], st => st
  | (i, j) :: ps, (tg, d) =>
      let tg1 := swapAt tg i j
      let d1 := setMat d i j (m.evaluate qid tg1 - original)
      let tg2 := swapAt tg1 i j
      swapLoop m qid original ps (tg2, d1)

/-- Metric.calc_swap_deltas (lines 38-75 of _metrics.py).  The first
component is the returned delta matrix; the second is the final state of
the caller's `targets` array, which the code mutates in place during the
loop. -/
def Metric.calc_swap_deltas (m : Metric Q R) (qid : Q) (targets : List R) :
    (ℕ → ℕ → R) × List R :=
  let n := targets.length
  let original := m.evaluate qid targets
  let K := effMaxK m.max_k n
  let st := swapLoop m qid original (pairsList K n) (targets, fun _ _ => 0)
  (st.2, st.1)

/-- Body of `calc_swap_deltas` for a metric whose `evaluate` may raise:
when a call to `evaluate` raises, the exception propagates immediately
and the swap made just before it is left in place (there is no
try/finally in the source). -/
def swapLoopE (m : MetricE Q R E) (qid : Q) (original : R) :
    List (ℕ × ℕ) → List R × (ℕ → ℕ → R) → Except E (ℕ → ℕ → R) × List R
  | [], (tg, d) => (Except.ok d, tg)
  | (i, j) :: ps, (tg, d) =>
      let tg1 := swapAt tg i j
      match m.evaluate qid tg1 with
      | Except.error e => (Except.error e, tg1)
      | Except.ok v =>
          swapLoopE m qid original ps (swapAt tg1 i j, setMat d i j (v - original))

/-- Metric.calc_swap_deltas for a metric whose `evaluate` may raise.  The
first component is the outcome (the matrix, or the escaped exception);
the second is the final state of the caller's `targets` array. -/
def MetricE.calc_swap_deltas (m : MetricE Q R E) (qid : Q) (targets : List R) :
    Except E (ℕ → ℕ → R) × List R :=
  let n := targets.length
  match m.evaluate qid targets with
  | Except.error e => (Except.error e, targets)
  | Except.ok original =>
      swapLoopE m qid original (pairsList (effMaxK m.max_k n) n) (targets, fun _ _ => 0)

/-- True exactly on the non-exceptional outcome. -/
def isOkE {E A : Type} : Except E A → Bool
  | Except.ok _ => true
  | Except.error _ => false

end SwapEngine

section LambdaEngine

variable {Q R : Type} [LinearOrderedField R]

/-- Modelled from the spec: the Sorting Utility `get_sorted_y_positions`
(pyltr/util/sort.py is not among the sources).  Spec section 6: it
"returns the index permutation achieving that order", i.e. the
permutation sorting `targets` into descending-`preds` order, with the
stable tie-break of section 4.1 (ties keep their original relative
order); realised as a stable insertion sort of the index list.  The
`check` flag only enables extra input validation and does not change the
result. -/
def get_sorted_y_positions (targets preds : List R) (check : Bool) : List ℕ :=
  List.insertionSort (fun a b => preds.getD b 0 ≤ preds.getD a 0) (List.range targets.length)

/-- Modelled from the spec: the Sorting Utility `get_sorted_y`
(pyltr/util/sort.py is not among the sources) — it "returns `targets`
permuted into descending-preds order" — realised by indexing `targets`
with the sorting permutation.  This is also the rank-ordered copy
`actual = targets[positions]` built at line 100 of _metrics.py (numpy
advanced indexing returns a fresh array). -/
def get_sorted_y (targets preds : List R) : List R :=
  (get_sorted_y_positions targets preds false).map (fun p => targets.getD p 0)

/-- Metric.evaluate_preds (lines 153-174 of _metrics.py). -/
def Metric.evaluate_preds (m : Metric Q R) (qid : Q) (targets preds : List R) : R :=
  m.evaluate qid (get_sorted_y targets preds)

/-- Effect of the numpy in-place update `v[i] += x` on a vector. -/
def addAt (l : List R) (i : ℕ) (x : R) : List R :=
  l.set i (l.getD i 0 + x)

/-- Body of the pairwise loop of `calc_lambdas_deltas` (lines 110-137 of
_metrics.py) for one visited pair, acting on the state
(lambdas, deltas); `none` models the AssertionError of a failed
`assert`. -/
def lamStep (expit : R → R) (preds actual : List R) (positions : List ℕ)
    (sd : ℕ → ℕ → R) (p : ℕ × ℕ) (st : List R × List R) :
    Option (List R × List R) :=
  let i := p.1
  let j := p.2
  if actual.getD i 0 = actual.getD j 0 then some st
  else
    let dm := sd i j
    if dm = 0 then some st
    else
      let a := positions.getD i 0
      let b := positions.getD j 0
      if actual.getD i 0 < actual.getD j 0 then
        if 0 < dm then
          let logistic := expit (preds.getD a 0 - preds.getD b 0)
          let l := logistic * dm
          some (addAt (addAt st.1 a (-l)) b l,
                addAt (addAt st.2 a ((1 - logistic) * l)) b ((1 - logistic) * l))
        else none
      else
        if dm < 0 then
          let logistic := expit (preds.getD b 0 - preds.getD a 0)
          let l := logistic * (-dm)
          some (addAt (addAt st.1 a l) b (-l),
                addAt (addAt st.2 a ((1 - logistic) * l)) b ((1 - logistic) * l))
        else none

/-- The full pairwise loop of `calc_lambdas_deltas`: iterate `lamStep`
over the visited pairs, aborting at the first failed assertion. -/
def lamLoop (expit : R → R) (preds actual : List R) (positions : List ℕ)
    (sd : ℕ → ℕ → R) : List (ℕ × ℕ) → List R × List R → Option (List R × List R)
  | [], st => some st
  | p :: ps, st =>
      match lamStep expit preds actual positions sd p st with
      | none => none
      | some st1 => lamLoop expit preds actual positions sd ps st1

/-- Metric.calc_lambdas_deltas (lines 77-139 of _metrics.py).  `expit`
stands for `scipy.special.expit`; `none` models an AssertionError
escaping the call.  `actual = targets[positions]` is a fresh array, so
the caller's `targets` is only read, never written. -/
def Metric.calc_lambdas_deltas (m : Metric Q R) (expit : R → R) (qid : Q)
    (targets preds : List R) : Option (List R × List R) :=
  let ns := targets.length
  let positions := get_sorted_y_positions targets preds false
  let actual := positions.map (fun p => targets.getD p 0)
  let sd := (m.calc_swap_deltas qid actual).1
  let K := effMaxK m.max_k ns
  lamLoop expit preds actual positions sd (pairsList K ns)
    (List.replicate ns 0, List.replicate ns 0)

/-- One pairwise update exactly as claim C2 words it: with
`a = positions[i]` and `b = positions[j]`, when `actual[i] < actual[j]`
subtract `l = expit(preds[a] - preds[b]) * sd[i, j]` from `lambda[a]` and
add it to `lambda[b]`; when `actual[i] > actual[j]` add
`l = expit(preds[b] - preds[a]) * (-sd[i, j])` to `lambda[a]` and
subtract it from `lambda[b]`; in both cases add
`hess = (1 - logistic) * l` to both `hessian[a]` and `hessian[b]`. -/
def specPairUpdate (expit : R → R) (preds actual : List R) (positions : List ℕ)
    (sd : ℕ → ℕ → R) (st : List R × List R) (p : ℕ × ℕ) : List R × List R :=
  let i := p.1
  let j := p.2
  let a := positions.getD i 0
  let b := positions.getD j 0
  if actual.getD i 0 < actual.getD j 0 then
    let logistic := expit (preds.getD a 0 - preds.getD b 0)
    let l := logistic * sd i j
    (addAt (addAt st.1 a (-l)) b l,
     addAt (addAt st.2 a ((1 - logistic) * l)) b ((1 - logistic) * l))
  else
    let logistic := expit (preds.getD b 0 - preds.getD a 0)
    let l := logistic * (-(sd i j))
    (addAt (addAt st.1 a l) b (-l),
     addAt (addAt st.2 a ((1 - logistic) * l)) b ((1 - logistic) * l))

/-- The lambda/hessian computation exactly as claim C2 describes it:
sort via the positions permutation, run the swap-delta engine on the
rank-ordered targets, and fold the described pairwise update over the
pairs with `actual[i] ≠ actual[j]` and a nonzero swap delta. -/
def specLambdasDeltas (expit : R → R) (m : Metric Q R) (qid : Q)
    (targets preds : List R) : List R × List R :=
  let ns := targets.length
  let positions := get_sorted_y_positions targets preds false
  let actual := positions.map (fun p => targets.getD p 0)
  let sd := (m.calc_swap_deltas qid actual).1
  let K := effMaxK m.max_k ns
  ((pairsList K ns).filter (fun p =>
      decide (¬actual.getD p.1 0 = actual.getD p.2 0) &&
      decide (¬sd p.1 p.2 = 0))).foldl
    (specPairUpdate expit preds actual positions sd)
    (List.replicate ns 0, List.replicate ns 0)

/-- A visited pair whose swap-delta sign contradicts the relevance
ordering — the situation claim C5 describes as tripping the fatal
assertions of `calc_lambdas_deltas`. -/
def badPair (actual : List R) (sd : ℕ → ℕ → R) (p : ℕ × ℕ) : Prop :=
  ¬actual.getD p.1 0 = actual.getD p.2 0 ∧ ¬sd p.1 p.2 = 0 ∧
    ((actual.getD p.1 0 < actual.getD p.2 0 ∧ sd p.1 p.2 ≤ 0) ∨
     (actual.getD p.2 0 < actual.getD p.1 0 ∧ 0 ≤ sd p.1 p.2))

end LambdaEngine

section RandomEv

variable {Q R : Type} [LinearOrderedField R]

/-- The scores list built by the loop of `calc_random_ev` (lines 196-199
of _metrics.py): `k` remaining iterations, each applying the next
outcome of `np.random.shuffle` (the injected stream `sh`, indexed by
`step`) to the working array and then evaluating it. -/
def shuffleScores (m : Metric Q R) (qid : Q) (sh : ℕ → List R → List R) :
    ℕ → ℕ → List R → List R
  | 0, _, _ => []
  | k + 1, step, t =>
      let t1 := sh step t
      m.evaluate qid t1 :: shuffleScores m qid sh k (step + 1) t1

/-- Metric.calc_random_ev (lines 176-200 of _metrics.py).  The source
first takes `targets = np.copy(targets)` and shuffles only that copy, so
the caller's array — returned as the second component — is untouched.
Randomness is modelled by the injected stream `sh` of shuffle outcomes
(the successive effects of `np.random.shuffle` under a given seed). -/
def Metric.calc_random_ev (m : Metric Q R) (sh : ℕ → List R → List R) (qid : Q)
    (targets : List R) : R × List R :=
  let scores := shuffleScores m qid sh 100 0 targets
  (scores.sum / (scores.length : R), targets)

end RandomEv

section Aggregator

variable {Q R : Type} [LinearOrderedField R]

/-- Modelled from the spec: the error raised by the Grouping Utility
(pyltr/util/group.py is not among the sources) when identical qid values
are not contiguous. -/
inductive GroupingError where
  | nonContiguous
deriving DecidableEq

/-- The Query-Group invariant of spec section 3: a qid value never
reappears after a different qid has intervened. -/
def ContiguousQids (qids : List Q) : Prop :=
  ∀ i j k : Fin qids.length, i < j → j < k →
    qids.get i = qids.get k → qids.get j = qids.get i

instance contiguousQidsDecidable [DecidableEq Q] (qids : List Q) :
    Decidable (ContiguousQids qids) :=
  inferInstanceAs (Decidable (∀ i j k : Fin qids.length, i < j → j < k →
    qids.get i = qids.get k → qids.get j = qids.get i))

/-- Modelled from the spec: the Grouping Utility `check_qids`
(pyltr/util/group.py is not among the sources).  Spec section 6: it
"fails with a GroupingError when identical qid values are not
contiguous". -/
def check_qids [DecidableEq Q] (qids : List Q) : Except GroupingError Unit :=
  if ContiguousQids qids then Except.ok () else Except.error GroupingError.nonContiguous

/-- Helper for `get_groups`: scans the tail of the qid list, extending
the current run `[start, idx)` of value `cur` or closing it. -/
def groupsAux [DecidableEq Q] : List Q → Q → ℕ → ℕ → List (Q × ℕ × ℕ)
  | [], cur, start, idx => [(cur, start, idx)]
  | q :: qs, cur, start, idx =>
      if q = cur then groupsAux qs cur start (idx + 1)
      else (cur, start, idx) :: groupsAux qs q idx (idx + 1)

/-- Modelled from the spec: the Grouping Utility `get_groups`
(pyltr/util/group.py is not among the sources) — it "returns an ordered
sequence of (qid, start, end) triples covering the whole input exactly
once, in encounter order" — realised as the maximal runs of consecutive
equal qids. -/
def get_groups [DecidableEq Q] : List Q → List (Q × ℕ × ℕ)
  | [] => []
  | q :: qs => groupsAux qs q 0 1

/-- The numpy slice `x[a:b]`. -/
def sliceArr (x : List R) (a b : ℕ) : List R :=
  (x.drop a).take (b - a)

/-- Metric.calc_mean (lines 202-224 of _metrics.py): validate the
grouping, evaluate each group's slices with `evaluate_preds`, and return
the numpy mean (the sum divided by the number of groups); a
GroupingError raised by `check_qids` propagates unchanged. -/
def Metric.calc_mean [DecidableEq Q] (m : Metric Q R) (qids : List Q)
    (targets preds : List R) : Except GroupingError R :=
  match check_qids qids with
  | Except.error e => Except.error e
  | Except.ok _ =>
      let vals := (get_groups qids).map
        (fun g => m.evaluate_preds g.1 (sliceArr targets g.2.1 g.2.2) (sliceArr preds g.2.1 g.2.2))
      Except.ok (vals.sum / (vals.length : R))

end Aggregator

section ConcreteInstances

/-- A concrete pure metric used in concrete runs: the score of a ranked
list is its first element. -/
def headMetric : Metric Unit ℚ where
  evaluate := fun _ l => l.headD 0
  max_k := none

/-- The same concrete metric with natural-number qids, for the grouped
aggregator runs. -/
def headMetricN : Metric ℕ ℚ where
  evaluate := fun _ l => l.headD 0
  max_k := none

/-- A concrete stand-in for `scipy.special.expit` used in concrete runs:
the constant 1/2, which satisfies the bounds 0 ≤ expit ≤ 1. -/
def halfExpit : ℚ → ℚ := fun _ => 1 / 2

/-- A concrete fallible metric whose `evaluate` succeeds only on the list
[0, 1]: the first pairwise swap makes it raise, exercising the exception
path of `calc_swap_deltas`. -/
def throwingMetric : MetricE Unit ℚ Unit where
  evaluate := fun _ l => if l = [0, 1] then Except.ok 0 else Except.error ()
  max_k := none

/-- A concrete fallible metric that never raises. -/
def constZeroMetricE : MetricE Unit ℚ Unit where
  evaluate := fun _ _ => Except.ok 0
  max_k := none

/-- A concrete deterministic shuffle stream: every step reverses the
working array (a permutation at each step). -/
def revShuffle : ℕ → List ℚ → List ℚ := fun _ l => l.reverse

end ConcreteInstances

section SwapTheorems

variable {Q R E : Type} [LinearOrderedField R]

theorem effMaxK_le (mk : Option ℕ) (n : ℕ) : effMaxK mk n ≤ n := by
  cases mk with
  | none => simp [effMaxK]
  | some k =>
      simp only [effMaxK]
      split <;> omega

theorem effMaxK_eq_specK (mk : Option ℕ) (n : ℕ) : effMaxK mk n = specK mk n := by
  cases mk with
  | none => rfl
  | some k =>
      simp only [effMaxK, specK]
      split <;> split <;> omega

theorem length_swapAt (l : List R) (i j : ℕ) : (swapAt l i j).length = l.length := by
  simp [swapAt]

theorem getElem_swapAt (l : List R) (i j k : ℕ) (hi : i < l.length) (hj : j < l.length)
    (hk : k < l.length) (hk2 : k < (swapAt l i j).length) :
    (swapAt l i j)[k] =
      if j = k then l[i] else if i = k then l[j] else l[k] := by
  have e1 : l.getD j 0 = l[j] := List.getD_eq_getElem l 0 hj
  have e2 : l.getD i 0 = l[i] := List.getD_eq_getElem l 0 hi
  unfold swapAt at hk2 ⊢
  simp only [List.getElem_set, e1, e2]

theorem swapAt_swapAt (l : List R) (i j : ℕ) (hi : i < l.length) (hj : j < l.length) :
    swapAt (swapAt l i j) i j = l := by
  have hlen : (swapAt l i j).length = l.length := length_swapAt l i j
  apply List.ext_getElem (by rw [length_swapAt, hlen])
  intro k hk1 hk2
  have hi1 : i < (swapAt l i j).length := by rw [hlen]; exact hi
  have hj1 : j < (swapAt l i j).length := by rw [hlen]; exact hj
  have hk3 : k < (swapAt l i j).length := by rw [hlen]; exact hk2
  rw [getElem_swapAt (swapAt l i j) i j k hi1 hj1 hk3 hk1]
  rw [getElem_swapAt l i j i hi hj hi hi1, getElem_swapAt l i j j hi hj hj hj1,
    getElem_swapAt l i j k hi hj hk2 hk3]
  split_ifs <;> simp_all

theorem mem_pairsList (K n i j : ℕ) : (i, j) ∈ pairsList K n ↔ i < K ∧ i < j ∧ j < n := by
  simp only [pairsList, List.mem_flatMap, List.mem_map, List.mem_range, List.mem_range'_1,
    Prod.mk.injEq]
  constructor
  · rintro ⟨a, ha, b, hb, rfl, rfl⟩
    omega
  · rintro ⟨h1, h2, h3⟩
    exact ⟨i, h1, j, by omega, rfl, rfl⟩

theorem setMat_self (d : ℕ → ℕ → R) (i j : ℕ) (v : R) : setMat d i j v i j = v := by
  simp [setMat, Function.update_same]

theorem setMat_other (d : ℕ → ℕ → R) (i j a b : ℕ) (v : R) (h : ¬(a = i ∧ b = j)) :
    setMat d i j v a b = d a b := by
  unfold setMat
  by_cases ha : a = i
  · subst ha
    rw [Function.update_same]
    have hb : b ≠ j := fun hb => h ⟨rfl, hb⟩
    rw [Function.update_noteq hb]
  · rw [Function.update_noteq ha]

theorem swapLoop_eq (m : Metric Q R) (qid : Q) (original : R) :
    ∀ (ps : List (ℕ × ℕ)) (tg : List R) (d : ℕ → ℕ → R),
      (∀ p ∈ ps, p.1 < tg.length ∧ p.1 < p.2 ∧ p.2 < tg.length) →
      swapLoop m qid original ps (tg, d) =
        (tg, fun a b =>
          if (a, b) ∈ ps then m.evaluate qid (swapAt tg a b) - original else d a b) := by
  intro ps
  induction ps with
  | nil =>
      intro tg d _
      simp [swapLoop]
  | cons p ps ih =>
      intro tg d hps
      obtain ⟨i, j⟩ := p
      obtain ⟨hi, hij, hj⟩ := hps (i, j) (List.mem_cons_self _ _)
      have hrest : ∀ q ∈ ps, q.1 < tg.length ∧ q.1 < q.2 ∧ q.2 < tg.length :=
        fun q hq => hps q (List.mem_cons_of_mem _ hq)
      have hstep : swapLoop m qid original ((i, j) :: ps) (tg, d) =
          swapLoop m qid original ps
            (swapAt (swapAt tg i j) i j,
             setMat d i j (m.evaluate qid (swapAt tg i j) - original)) := rfl
      rw [hstep, swapAt_swapAt tg i j hi (by omega), ih tg _ hrest]
      refine Prod.ext rfl ?_
      funext a b
      by_cases hmem : (a, b) ∈ ps
      · simp only [if_pos hmem, if_pos (List.mem_cons_of_mem (i, j) hmem)]
      · by_cases hab : (a, b) = (i, j)
        · have ha : a = i := congrArg Prod.fst hab
          have hb : b = j := congrArg Prod.snd hab
          subst ha
          subst hb
          simp only [if_neg hmem, setMat_self, if_pos (List.mem_cons_self (a, b) ps)]
        · have hnc : ¬(a, b) ∈ (i, j) :: ps := by
            intro hc
            rcases List.mem_cons.mp hc with h | h
            · exact hab h
            · exact hmem h
          simp only [if_neg hmem, if_neg hnc]
          exact setMat_other d i j a b _ (fun hc => hab (by rw [hc.1, hc.2]))

theorem calc_swap_deltas_eq (m : Metric Q R) (qid : Q) (targets : List R) :
    m.calc_swap_deltas qid targets =
      ((fun a b =>
          if (a, b) ∈ pairsList (effMaxK m.max_k targets.length) targets.length then
            m.evaluate qid (swapAt targets a b) - m.evaluate qid targets
          else 0),
       targets) := by
  have hb : ∀ p ∈ pairsList (effMaxK m.max_k targets.length) targets.length,
      p.1 < targets.length ∧ p.1 < p.2 ∧ p.2 < targets.length := by
    intro p hp
    obtain ⟨i, j⟩ := p
    have h := (mem_pairsList _ _ i j).mp hp
    have hK := effMaxK_le m.max_k targets.length
    exact ⟨by omega, h.2.1, h.2.2⟩
  simp only [Metric.calc_swap_deltas]
  rw [swapLoop_eq m qid (m.evaluate qid targets)
    (pairsList (effMaxK m.max_k targets.length) targets.length) targets (fun _ _ => 0) hb]

/-- C1: for every metric with a pure evaluate function and every
rank-ordered targets list of length n, `calc_swap_deltas` returns a
matrix in which, with K = max_k() when max_k() is defined and less than
n and K = n otherwise, entry (i, j) for 0 ≤ i < K and i < j < n equals
evaluate(qid, targets with positions i and j exchanged) minus
evaluate(qid, targets), and every other entry (the diagonal, the strict
lower triangle, and every row with index ≥ K) is exactly zero. -/
theorem c1_calc_swap_deltas_entries (m : Metric Q R) (qid : Q) (targets : List R) (i j : ℕ) :
    (m.calc_swap_deltas qid targets).1 i j =
      if i < specK m.max_k targets.length ∧ i < j ∧ j < targets.length then
        m.evaluate qid (swapAt targets i j) - m.evaluate qid targets
      else 0 := by
  rw [calc_swap_deltas_eq]
  simp only [mem_pairsList, effMaxK_eq_specK]

/-- C4: for every metric with a pure evaluate function, the engines leave
the caller's `targets` array unchanged in content and order after
returning: `calc_swap_deltas` restores the array it mutates, and inside
`calc_lambdas_deltas` the only array handed to the mutating swap engine
is the fresh rank-ordered copy `actual = targets[positions]`
(`get_sorted_y targets preds`), which is likewise restored, the caller's
`targets` being only read. -/
theorem c4_no_mutation (m : Metric Q R) (qid : Q) (targets preds : List R) :
    (m.calc_swap_deltas qid targets).2 = targets ∧
    (m.calc_swap_deltas qid (get_sorted_y targets preds)).2 = get_sorted_y targets preds := by
  constructor <;> rw [calc_swap_deltas_eq]

theorem swapLoopE_restore_of_ok (m : MetricE Q R E) (qid : Q) (original : R) :
    ∀ (ps : List (ℕ × ℕ)) (tg : List R) (d : ℕ → ℕ → R),
      (∀ p ∈ ps, p.1 < tg.length ∧ p.1 < p.2 ∧ p.2 < tg.length) →
      isOkE (swapLoopE m qid original ps (tg, d)).1 = true →
      (swapLoopE m qid original ps (tg, d)).2 = tg := by
  intro ps
  induction ps with
  | nil =>
      intro tg d _ _
      rfl
  | cons p ps ih =>
      intro tg d hps hok
      obtain ⟨i, j⟩ := p
      obtain ⟨hi, hij, hj⟩ := hps (i, j) (List.mem_cons_self _ _)
      have hrest : ∀ q ∈ ps, q.1 < tg.length ∧ q.1 < q.2 ∧ q.2 < tg.length :=
        fun q hq => hps q (List.mem_cons_of_mem _ hq)
      have hstep : swapLoopE m qid original ((i, j) :: ps) (tg, d) =
          match m.evaluate qid (swapAt tg i j) with
          | Except.error e => (Except.error e, swapAt tg i j)
          | Except.ok v =>
              swapLoopE m qid original ps
                (swapAt (swapAt tg i j) i j,
                 setMat d i j (v - original)) := rfl
      rw [hstep] at hok ⊢
      cases hev : m.evaluate qid (swapAt tg i j) with
      | error e =>
          rw [hev] at hok
          have hok2 : isOkE (Except.error e : Except E (ℕ → ℕ → R)) = true := hok
          simp [isOkE] at hok2
      | ok v =>
          rw [hev] at hok
          have hok2 : isOkE (swapLoopE m qid original ps
              (swapAt (swapAt tg i j) i j, setMat d i j (v - original))).1 = true := hok
          have hres : (swapLoopE m qid original ps
              (swapAt (swapAt tg i j) i j, setMat d i j (v - original))).2 = tg := by
            rw [swapAt_swapAt tg i j hi (by omega)] at hok2 ⊢
            exact ih tg _ hrest hok2
          exact hres

/-- C3 (amended): when `calc_swap_deltas` returns normally, the targets
array is restored to the input; the original claim's exception case is
refuted by `c3_counterexample`, since the source has no try/finally and
an exception from `evaluate` mid-loop leaves the failing pair swapped. -/
theorem c3_restore_on_normal_return (m : MetricE Q R E) (qid : Q) (targets : List R)
    (h : isOkE (m.calc_swap_deltas qid targets).1 = true) :
    (m.calc_swap_deltas qid targets).2 = targets := by
  unfold MetricE.calc_swap_deltas at h ⊢
  cases hev : m.evaluate qid targets with
  | error e => rfl
  | ok original =>
      rw [hev] at h
      have h2 : isOkE (swapLoopE m qid original
          (pairsList (effMaxK m.max_k targets.length) targets.length)
          (targets, fun _ _ => 0)).1 = true := h
      have hres : (swapLoopE m qid original
          (pairsList (effMaxK m.max_k targets.length) targets.length)
          (targets, fun _ _ => 0)).2 = targets := by
        refine swapLoopE_restore_of_ok m qid original _ targets _ ?_ h2
        intro p hp
        obtain ⟨i, j⟩ := p
        have hb := (mem_pairsList _ _ i j).mp hp
        have hK := effMaxK_le m.max_k targets.length
        exact ⟨by omega, hb.2.1, hb.2.2⟩
      exact hres

/-- C3 witness for the amended claim: a run in which every `evaluate`
call returns normally restores the caller's array. -/
theorem c3_restore_witness :
    isOkE (constZeroMetricE.calc_swap_deltas () [5, 7]).1 = true ∧
    (constZeroMetricE.calc_swap_deltas () [5, 7]).2 = [5, 7] :=
  ⟨by decide, c3_restore_on_normal_return constZeroMetricE () [5, 7] (by decide)⟩

/-- C3 counterexample: with a metric whose `evaluate` raises at the first
swapped configuration, `calc_swap_deltas` propagates the exception and
leaves the caller's `targets` array in the swapped state `[1, 0]`, not
bit-identical to the input `[0, 1]`. -/
theorem c3_counterexample :
    isOkE (throwingMetric.calc_swap_deltas () [0, 1]).1 = false ∧
    (throwingMetric.calc_swap_deltas () [0, 1]).2 = [1, 0] ∧
    (throwingMetric.calc_swap_deltas () [0, 1]).2 ≠ [0, 1] := by
  refine ⟨by decide, by decide, ?_⟩
  intro h
  have h2 : ([1, 0] : List ℚ) = [0, 1] := by
    have h1 : (throwingMetric.calc_swap_deltas () [0, 1]).2 = [1, 0] := by decide
    rw [← h1]
    exact h
  simp at h2

end SwapTheorems

section LambdaTheorems

variable {Q R : Type} [LinearOrderedField R]

theorem length_addAt (l : List R) (i : ℕ) (x : R) : (addAt l i x).length = l.length := by
  simp [addAt]

theorem sum_addAt (l : List R) (i : ℕ) (x : R) (h : i < l.length) :
    (addAt l i x).sum = l.sum + x := by
  induction l generalizing i with
  | nil => simp at h
  | cons a t ih =>
      cases i with
      | zero =>
          simp [addAt, List.getD_cons_zero]
          ring
      | succ i =>
          have ht : i < t.length := by simpa using h
          have : addAt (a :: t) (i + 1) x = a :: addAt t i x := by
            simp [addAt, List.getD_cons_succ]
          rw [this]
          simp only [List.sum_cons, ih i ht]
          ring

theorem nonneg_addAt (l : List R) (i : ℕ) (x : R) (hl : ∀ y ∈ l, 0 ≤ y) (hx : 0 ≤ x) :
    ∀ y ∈ addAt l i x, 0 ≤ y := by
  induction l generalizing i with
  | nil =>
      intro y hy
      simp [addAt] at hy
  | cons a t ih =>
      cases i with
      | zero =>
          intro y hy
          rw [show addAt (a :: t) 0 x = (a + x) :: t by simp [addAt, List.getD_cons_zero]] at hy
          rcases List.mem_cons.mp hy with rfl | hy2
          · exact add_nonneg (hl a (List.mem_cons_self a t)) hx
          · exact hl y (List.mem_cons_of_mem a hy2)
      | succ i =>
          intro y hy
          rw [show addAt (a :: t) (i + 1) x = a :: addAt t i x by
            simp [addAt, List.getD_cons_succ]] at hy
          rcases List.mem_cons.mp hy with rfl | hy2
          · exact hl y (List.mem_cons_self y t)
          · exact ih i (fun z hz => hl z (List.mem_cons_of_mem a hz)) y hy2

theorem get_sorted_y_positions_perm (targets preds : List R) (c : Bool) :
    List.Perm (get_sorted_y_positions targets preds c) (List.range targets.length) :=
  List.perm_insertionSort _ _

theorem length_get_sorted_y_positions (targets preds : List R) (c : Bool) :
    (get_sorted_y_positions targets preds c).length = targets.length := by
  rw [(get_sorted_y_positions_perm targets preds c).length_eq, List.length_range]

theorem get_sorted_y_positions_lt (targets preds : List R) (c : Bool) (i : ℕ)
    (hp : i < (get_sorted_y_positions targets preds c).length) :
    (get_sorted_y_positions targets preds c).getD i 0 < targets.length := by
  have hm : (get_sorted_y_positions targets preds c).getD i 0 ∈
      get_sorted_y_positions targets preds c := by
    rw [List.getD_eq_getElem _ _ hp]
    exact List.getElem_mem hp
  have h2 := (get_sorted_y_positions_perm targets preds c).mem_iff.mp hm
  simpa using h2

theorem lamStep_skip (expit : R → R) (preds actual : List R) (positions : List ℕ)
    (sd : ℕ → ℕ → R) (p : ℕ × ℕ) (st : List R × List R)
    (h : actual.getD p.1 0 = actual.getD p.2 0 ∨ sd p.1 p.2 = 0) :
    lamStep expit preds actual positions sd p st = some st := by
  simp only [lamStep]
  rcases h with h | h
  · rw [if_pos h]
  · by_cases h1 : actual.getD p.1 0 = actual.getD p.2 0
    · rw [if_pos h1]
    · rw [if_neg h1, if_pos h]

theorem lamStep_none_iff (expit : R → R) (preds actual : List R) (positions : List ℕ)
    (sd : ℕ → ℕ → R) (p : ℕ × ℕ) (st : List R × List R) :
    lamStep expit preds actual positions sd p st = none ↔ badPair actual sd p := by
  unfold badPair
  simp only [lamStep]
  by_cases h1 : actual.getD p.1 0 = actual.getD p.2 0
  · rw [if_pos h1]
    constructor
    · intro hc
      exact Option.noConfusion hc
    · rintro ⟨hne, -, -⟩
      exact absurd h1 hne
  · rw [if_neg h1]
    by_cases h2 : sd p.1 p.2 = 0
    · rw [if_pos h2]
      constructor
      · intro hc
        exact Option.noConfusion hc
      · rintro ⟨-, hne2, -⟩
        exact absurd h2 hne2
    · rw [if_neg h2]
      by_cases h3 : actual.getD p.1 0 < actual.getD p.2 0
      · rw [if_pos h3]
        by_cases h4 : 0 < sd p.1 p.2
        · rw [if_pos h4]
          constructor
          · intro hc
            exact Option.noConfusion hc
          · rintro ⟨-, -, hor⟩
            rcases hor with ⟨-, hle⟩ | ⟨hgt, -⟩
            · exact absurd h4 (not_lt.mpr hle)
            · exact absurd h3 (lt_asymm hgt)
        · rw [if_neg h4]
          constructor
          · intro _
            exact ⟨h1, h2, Or.inl ⟨h3, not_lt.mp h4⟩⟩
          · intro _
            rfl
      · have h6 : actual.getD p.2 0 < actual.getD p.1 0 :=
          lt_of_le_of_ne (not_lt.mp h3) (fun hc => h1 hc.symm)
        rw [if_neg h3]
        by_cases h5 : sd p.1 p.2 < 0
        · rw [if_pos h5]
          constructor
          · intro hc
            exact Option.noConfusion hc
          · rintro ⟨-, -, hor⟩
            rcases hor with ⟨hlt, -⟩ | ⟨-, hge⟩
            · exact absurd hlt h3
            · exact absurd h5 (not_lt.mpr hge)
        · rw [if_neg h5]
          constructor
          · intro _
            exact ⟨h1, h2, Or.inr ⟨h6, not_lt.mp h5⟩⟩
          · intro _
            rfl

theorem lamStep_some_value (expit : R → R) (preds actual : List R) (positions : List ℕ)
    (sd : ℕ → ℕ → R) (p : ℕ × ℕ) (st st1 : List R × List R)
    (h1 : ¬actual.getD p.1 0 = actual.getD p.2 0) (h2 : ¬sd p.1 p.2 = 0)
    (hs : lamStep expit preds actual positions sd p st = some st1) :
    st1 = specPairUpdate expit preds actual positions sd st p := by
  simp only [lamStep, if_neg h1, if_neg h2] at hs
  simp only [specPairUpdate]
  by_cases h3 : actual.getD p.1 0 < actual.getD p.2 0
  · rw [if_pos h3] at hs
    rw [if_pos h3]
    by_cases h4 : 0 < sd p.1 p.2
    · rw [if_pos h4] at hs
      exact (Option.some.inj hs).symm
    · rw [if_neg h4] at hs
      exact Option.noConfusion hs
  · rw [if_neg h3] at hs
    rw [if_neg h3]
    by_cases h5 : sd p.1 p.2 < 0
    · rw [if_pos h5] at hs
      exact (Option.some.inj hs).symm
    · rw [if_neg h5] at hs
      exact Option.noConfusion hs

theorem lamLoop_eq_foldl (expit : R → R) (preds actual : List R) (positions : List ℕ)
    (sd : ℕ → ℕ → R) :
    ∀ (ps : List (ℕ × ℕ)) (st st' : List R × List R),
      lamLoop expit preds actual positions sd ps st = some st' →
      st' = (ps.filter (fun p =>
          decide (¬actual.getD p.1 0 = actual.getD p.2 0) &&
          decide (¬sd p.1 p.2 = 0))).foldl
        (specPairUpdate expit preds actual positions sd) st := by
  intro ps
  induction ps with
  | nil =>
      intro st st' h
      have h2 : some st = some st' := h
      rw [← Option.some.inj h2]
      rfl
  | cons p ps ih =>
      intro st st' h
      have hstep : lamLoop expit preds actual positions sd (p :: ps) st =
          match lamStep expit preds actual positions sd p st with
          | none => none
          | some st1 => lamLoop expit preds actual positions sd ps st1 := rfl
      rw [hstep] at h
      by_cases h1 : actual.getD p.1 0 = actual.getD p.2 0
      · rw [lamStep_skip expit preds actual positions sd p st (Or.inl h1)] at h
        have hf : (p :: ps).filter (fun p =>
            decide (¬actual.getD p.1 0 = actual.getD p.2 0) &&
            decide (¬sd p.1 p.2 = 0)) = ps.filter (fun p =>
            decide (¬actual.getD p.1 0 = actual.getD p.2 0) &&
            decide (¬sd p.1 p.2 = 0)) := by
          apply List.filter_cons_of_neg
          simp only [decide_eq_false (not_not_intro h1), Bool.false_and]
          exact Bool.false_ne_true
        rw [hf]
        exact ih st st' h
      · by_cases h2 : sd p.1 p.2 = 0
        · rw [lamStep_skip expit preds actual positions sd p st (Or.inr h2)] at h
          have hf : (p :: ps).filter (fun p =>
              decide (¬actual.getD p.1 0 = actual.getD p.2 0) &&
              decide (¬sd p.1 p.2 = 0)) = ps.filter (fun p =>
              decide (¬actual.getD p.1 0 = actual.getD p.2 0) &&
              decide (¬sd p.1 p.2 = 0)) := by
            apply List.filter_cons_of_neg
            simp only [decide_eq_false (not_not_intro h2), Bool.and_false]
            exact Bool.false_ne_true
          rw [hf]
          exact ih st st' h
        · cases hstep2 : lamStep expit preds actual positions sd p st with
          | none =>
              rw [hstep2] at h
              exact Option.noConfusion h
          | some st1 =>
              rw [hstep2] at h
              have hv : st1 = specPairUpdate expit preds actual positions sd st p :=
                lamStep_some_value expit preds actual positions sd p st st1 h1 h2 hstep2
              have hf : (p :: ps).filter (fun p =>
                  decide (¬actual.getD p.1 0 = actual.getD p.2 0) &&
                  decide (¬sd p.1 p.2 = 0)) = p :: ps.filter (fun p =>
                  decide (¬actual.getD p.1 0 = actual.getD p.2 0) &&
                  decide (¬sd p.1 p.2 = 0)) := by
                apply List.filter_cons_of_pos
                simp only [decide_eq_true h1, decide_eq_true h2, Bool.and_self]
              rw [hf, List.foldl_cons, ← hv]
              exact ih st1 st' h

theorem lamLoop_none_iff (expit : R → R) (preds actual : List R) (positions : List ℕ)
    (sd : ℕ → ℕ → R) :
    ∀ (ps : List (ℕ × ℕ)) (st : List R × List R),
      lamLoop expit preds actual positions sd ps st = none ↔
        ∃ p ∈ ps, badPair actual sd p := by
  intro ps
  induction ps with
  | nil =>
      intro st
      simp [lamLoop]
  | cons p ps ih =>
      intro st
      have hstep : lamLoop expit preds actual positions sd (p :: ps) st =
          match lamStep expit preds actual positions sd p st with
          | none => none
          | some st1 => lamLoop expit preds actual positions sd ps st1 := rfl
      rw [hstep]
      cases hstep2 : lamStep expit preds actual positions sd p st with
      | none =>
          constructor
          · intro _
            exact ⟨p, List.mem_cons_self p ps,
              (lamStep_none_iff expit preds actual positions sd p st).mp hstep2⟩
          · intro _
            rfl
      | some st1 =>
          have hnb : ¬badPair actual sd p := fun hb =>
            Option.noConfusion (hstep2.symm.trans
              ((lamStep_none_iff expit preds actual positions sd p st).mpr hb))
          constructor
          · intro h
            obtain ⟨q, hq, hbq⟩ := (ih st1).mp h
            exact ⟨q, List.mem_cons_of_mem p hq, hbq⟩
          · rintro ⟨q, hq, hbq⟩
            rcases List.mem_cons.mp hq with rfl | hq2
            · exact absurd hbq hnb
            · exact (ih st1).mpr ⟨q, hq2, hbq⟩

theorem length_specPairUpdate (expit : R → R) (preds actual : List R) (positions : List ℕ)
    (sd : ℕ → ℕ → R) (st : List R × List R) (p : ℕ × ℕ) :
    (specPairUpdate expit preds actual positions sd st p).1.length = st.1.length ∧
    (specPairUpdate expit preds actual positions sd st p).2.length = st.2.length := by
  simp only [specPairUpdate]
  split_ifs <;> constructor <;> simp [length_addAt]

theorem sum_specPairUpdate (expit : R → R) (preds actual : List R) (positions : List ℕ)
    (sd : ℕ → ℕ → R) (st : List R × List R) (p : ℕ × ℕ)
    (ha : positions.getD p.1 0 < st.1.length) (hb : positions.getD p.2 0 < st.1.length) :
    (specPairUpdate expit preds actual positions sd st p).1.sum = st.1.sum := by
  simp only [specPairUpdate]
  split_ifs
  · rw [sum_addAt _ _ _ (by rw [length_addAt]; exact hb), sum_addAt _ _ _ ha]
    ring
  · rw [sum_addAt _ _ _ (by rw [length_addAt]; exact hb), sum_addAt _ _ _ ha]
    ring

theorem foldl_specPairUpdate_lengths (expit : R → R) (preds actual : List R)
    (positions : List ℕ) (sd : ℕ → ℕ → R) :
    ∀ (ps : List (ℕ × ℕ)) (st : List R × List R),
      ((ps.foldl (specPairUpdate expit preds actual positions sd) st).1.length = st.1.length ∧
       (ps.foldl (specPairUpdate expit preds actual positions sd) st).2.length = st.2.length) := by
  intro ps
  induction ps with
  | nil =>
      intro st
      exact ⟨rfl, rfl⟩
  | cons p ps ih =>
      intro st
      rw [List.foldl_cons]
      have h1 := length_specPairUpdate expit preds actual positions sd st p
      have h2 := ih (specPairUpdate expit preds actual positions sd st p)
      exact ⟨h2.1.trans h1.1, h2.2.trans h1.2⟩

theorem foldl_specPairUpdate_sum (expit : R → R) (preds actual : List R)
    (positions : List ℕ) (sd : ℕ → ℕ → R) :
    ∀ (ps : List (ℕ × ℕ)) (st : List R × List R),
      (∀ p ∈ ps, positions.getD p.1 0 < st.1.length ∧ positions.getD p.2 0 < st.1.length) →
      (ps.foldl (specPairUpdate expit preds actual positions sd) st).1.sum = st.1.sum := by
  intro ps
  induction ps with
  | nil =>
      intro st _
      rfl
  | cons p ps ih =>
      intro st hps
      obtain ⟨ha, hb⟩ := hps p (List.mem_cons_self p ps)
      rw [List.foldl_cons]
      have hlen := (length_specPairUpdate expit preds actual positions sd st p).1
      rw [ih (specPairUpdate expit preds actual positions sd st p) (by
        intro q hq
        rw [hlen]
        exact hps q (List.mem_cons_of_mem p hq))]
      exact sum_specPairUpdate expit preds actual positions sd st p ha hb

theorem lamStep_nonneg (expit : R → R) (preds actual : List R) (positions : List ℕ)
    (sd : ℕ → ℕ → R) (p : ℕ × ℕ) (st st1 : List R × List R)
    (he : ∀ x : R, 0 ≤ expit x ∧ expit x ≤ 1)
    (h2 : ∀ x ∈ st.2, 0 ≤ x)
    (hs : lamStep expit preds actual positions sd p st = some st1) :
    ∀ x ∈ st1.2, 0 ≤ x := by
  simp only [lamStep] at hs
  by_cases hEq : actual.getD p.1 0 = actual.getD p.2 0
  · rw [if_pos hEq] at hs
    obtain rfl := Option.some.inj hs
    exact h2
  · rw [if_neg hEq] at hs
    by_cases hDm : sd p.1 p.2 = 0
    · rw [if_pos hDm] at hs
      obtain rfl := Option.some.inj hs
      exact h2
    · rw [if_neg hDm] at hs
      by_cases hLt : actual.getD p.1 0 < actual.getD p.2 0
      · rw [if_pos hLt] at hs
        by_cases hPos : 0 < sd p.1 p.2
        · rw [if_pos hPos] at hs
          obtain rfl := Option.some.inj hs
          have hess : (0 : R) ≤
              (1 - expit (preds.getD (positions.getD p.1 0) 0 -
                preds.getD (positions.getD p.2 0) 0)) *
              (expit (preds.getD (positions.getD p.1 0) 0 -
                preds.getD (positions.getD p.2 0) 0) * sd p.1 p.2) :=
            mul_nonneg (sub_nonneg.mpr (he _).2) (mul_nonneg (he _).1 (le_of_lt hPos))
          exact nonneg_addAt _ _ _ (nonneg_addAt _ _ _ h2 hess) hess
        · rw [if_neg hPos] at hs
          exact Option.noConfusion hs
      · rw [if_neg hLt] at hs
        by_cases hNeg : sd p.1 p.2 < 0
        · rw [if_pos hNeg] at hs
          obtain rfl := Option.some.inj hs
          have hess : (0 : R) ≤
              (1 - expit (preds.getD (positions.getD p.2 0) 0 -
                preds.getD (positions.getD p.1 0) 0)) *
              (expit (preds.getD (positions.getD p.2 0) 0 -
                preds.getD (positions.getD p.1 0) 0) * -sd p.1 p.2) :=
            mul_nonneg (sub_nonneg.mpr (he _).2)
              (mul_nonneg (he _).1 (le_of_lt (neg_pos.mpr hNeg)))
          exact nonneg_addAt _ _ _ (nonneg_addAt _ _ _ h2 hess) hess
        · rw [if_neg hNeg] at hs
          exact Option.noConfusion hs

theorem lamLoop_nonneg (expit : R → R) (preds actual : List R) (positions : List ℕ)
    (sd : ℕ → ℕ → R) (he : ∀ x : R, 0 ≤ expit x ∧ expit x ≤ 1) :
    ∀ (ps : List (ℕ × ℕ)) (st st' : List R × List R),
      (∀ x ∈ st.2, 0 ≤ x) →
      lamLoop expit preds actual positions sd ps st = some st' →
      ∀ x ∈ st'.2, 0 ≤ x := by
  intro ps
  induction ps with
  | nil =>
      intro st st' h2 h
      have h3 : some st = some st' := h
      rw [← Option.some.inj h3]
      exact h2
  | cons p ps ih =>
      intro st st' h2 h
      have hstep : lamLoop expit preds actual positions sd (p :: ps) st =
          match lamStep expit preds actual positions sd p st with
          | none => none
          | some st1 => lamLoop expit preds actual positions sd ps st1 := rfl
      rw [hstep] at h
      cases hstep2 : lamStep expit preds actual positions sd p st with
      | none =>
          rw [hstep2] at h
          exact Option.noConfusion h
      | some st1 =>
          rw [hstep2] at h
          exact ih st1 st'
            (lamStep_nonneg expit preds actual positions sd p st st1 he h2 hstep2) h

/-- C5: during `calc_lambdas_deltas`, the computation fails fast with a
fatal assertion (modelled by `none`) exactly when some visited pair with
`actual[i] ≠ actual[j]` and nonzero swap delta has a delta sign
contradicting the relevance ordering; when the sign convention holds for
every such pair, no assertion fires. -/
theorem c5_assertion_fails_iff (m : Metric Q R) (expit : R → R) (qid : Q)
    (targets preds : List R) :
    m.calc_lambdas_deltas expit qid targets preds = none ↔
      ∃ p ∈ pairsList (effMaxK m.max_k targets.length) targets.length,
        badPair (get_sorted_y targets preds)
          ((m.calc_swap_deltas qid (get_sorted_y targets preds)).1) p :=
  lamLoop_none_iff expit preds
    ((get_sorted_y_positions targets preds false).map (fun p => targets.getD p 0))
    (get_sorted_y_positions targets preds false)
    ((m.calc_swap_deltas qid
      ((get_sorted_y_positions targets preds false).map (fun p => targets.getD p 0))).1)
    (pairsList (effMaxK m.max_k targets.length) targets.length)
    (List.replicate targets.length 0, List.replicate targets.length 0)

/-- C2: whenever `calc_lambdas_deltas` returns normally, its result is
exactly the two length-n vectors described by the claim: sort into rank
order via the positions permutation, run `calc_swap_deltas` on the
rank-ordered targets, and for each visited pair with distinct relevance
and nonzero swap delta apply the described lambda/hessian update at the
original row indices `a = positions[i]`, `b = positions[j]`. -/
theorem c2_lambdas_match_spec (m : Metric Q R) (expit : R → R) (qid : Q)
    (targets preds : List R) (st : List R × List R)
    (hlen : preds.length = targets.length)
    (hst : m.calc_lambdas_deltas expit qid targets preds = some st) :
    st = specLambdasDeltas expit m qid targets preds ∧
    st.1.length = targets.length ∧ st.2.length = targets.length := by
  have h1 := lamLoop_eq_foldl expit preds
    ((get_sorted_y_positions targets preds false).map (fun p => targets.getD p 0))
    (get_sorted_y_positions targets preds false)
    ((m.calc_swap_deltas qid
      ((get_sorted_y_positions targets preds false).map (fun p => targets.getD p 0))).1)
    (pairsList (effMaxK m.max_k targets.length) targets.length)
    (List.replicate targets.length 0, List.replicate targets.length 0) st hst
  have hl := foldl_specPairUpdate_lengths expit preds
    ((get_sorted_y_positions targets preds false).map (fun p => targets.getD p 0))
    (get_sorted_y_positions targets preds false)
    ((m.calc_swap_deltas qid
      ((get_sorted_y_positions targets preds false).map (fun p => targets.getD p 0))).1)
    ((pairsList (effMaxK m.max_k targets.length) targets.length).filter (fun p =>
      decide (¬((get_sorted_y_positions targets preds false).map
        (fun p => targets.getD p 0)).getD p.1 0 =
          ((get_sorted_y_positions targets preds false).map
            (fun p => targets.getD p 0)).getD p.2 0) &&
      decide (¬((m.calc_swap_deltas qid
        ((get_sorted_y_positions targets preds false).map
          (fun p => targets.getD p 0))).1) p.1 p.2 = 0)))
    (List.replicate targets.length 0, List.replicate targets.length 0)
  refine ⟨h1, ?_, ?_⟩
  · rw [h1]
    rw [hl.1]
    exact List.length_replicate targets.length 0
  · rw [h1]
    rw [hl.2]
    exact List.length_replicate targets.length 0

/-- C9: whenever `calc_lambdas_deltas` returns normally, the entries of
the returned lambda vector sum to exactly zero (each pairwise
contribution adds a quantity at one index and subtracts it at the
other). -/
theorem c9_lambda_sum_zero (m : Metric Q R) (expit : R → R) (qid : Q)
    (targets preds : List R) (st : List R × List R)
    (hst : m.calc_lambdas_deltas expit qid targets preds = some st) :
    st.1.sum = 0 := by
  have h1 := lamLoop_eq_foldl expit preds
    ((get_sorted_y_positions targets preds false).map (fun p => targets.getD p 0))
    (get_sorted_y_positions targets preds false)
    ((m.calc_swap_deltas qid
      ((get_sorted_y_positions targets preds false).map (fun p => targets.getD p 0))).1)
    (pairsList (effMaxK m.max_k targets.length) targets.length)
    (List.replicate targets.length 0, List.replicate targets.length 0) st hst
  rw [h1]
  rw [foldl_specPairUpdate_sum expit preds
    ((get_sorted_y_positions targets preds false).map (fun p => targets.getD p 0))
    (get_sorted_y_positions targets preds false)
    ((m.calc_swap_deltas qid
      ((get_sorted_y_positions targets preds false).map (fun p => targets.getD p 0))).1)
    _ (List.replicate targets.length 0, List.replicate targets.length 0) (by
      intro p hp
      have hp2 := List.mem_of_mem_filter hp
      obtain ⟨i, j⟩ := p
      have hb := (mem_pairsList _ _ i j).mp hp2
      have hK := effMaxK_le m.max_k targets.length
      have hlenP := length_get_sorted_y_positions targets preds false
      have hlt1 : (get_sorted_y_positions targets preds false).getD i 0 < targets.length :=
        get_sorted_y_positions_lt targets preds false i (by rw [hlenP]; omega)
      have hlt2 : (get_sorted_y_positions targets preds false).getD j 0 < targets.length :=
        get_sorted_y_positions_lt targets preds false j (by rw [hlenP]; omega)
      simp only [List.length_replicate]
      exact ⟨hlt1, hlt2⟩)]
  simp

/-- C10: whenever `calc_lambdas_deltas` returns normally and `expit`
satisfies the logistic bounds 0 ≤ expit ≤ 1, every entry of the returned
hessian vector is non-negative: each contribution
`hess = (1 - logistic) * l` is a product of non-negative factors and
contributions are only ever added. -/
theorem c10_hessian_nonneg (m : Metric Q R) (expit : R → R) (qid : Q)
    (targets preds : List R) (st : List R × List R)
    (he : ∀ x : R, 0 ≤ expit x ∧ expit x ≤ 1)
    (hst : m.calc_lambdas_deltas expit qid targets preds = some st) :
    ∀ x ∈ st.2, 0 ≤ x := by
  refine lamLoop_nonneg expit preds
    ((get_sorted_y_positions targets preds false).map (fun p => targets.getD p 0))
    (get_sorted_y_positions targets preds false)
    ((m.calc_swap_deltas qid
      ((get_sorted_y_positions targets preds false).map (fun p => targets.getD p 0))).1)
    he
    (pairsList (effMaxK m.max_k targets.length) targets.length)
    (List.replicate targets.length 0, List.replicate targets.length 0) st ?_ hst
  intro x hx
  exact le_of_eq (List.eq_of_mem_replicate hx).symm

theorem headMetric_lambdas_run :
    headMetric.calc_lambdas_deltas halfExpit () [1, 0] [2, 1] =
      some ([1/2, -1/2], [1/4, 1/4]) := by
  norm_num [Metric.calc_lambdas_deltas, get_sorted_y_positions, List.insertionSort,
    List.orderedInsert, List.range_succ, Metric.calc_swap_deltas, swapLoop, swapAt,
    setMat, pairsList, lamLoop, lamStep, addAt, effMaxK, headMetric, halfExpit,
    Function.update, List.range', List.replicate, List.set]

/-- C2 witness: the concrete run of `calc_lambdas_deltas` on the head
metric agrees with the claim's description. -/
theorem c2_witness :
    ([2, 1] : List ℚ).length = ([1, 0] : List ℚ).length ∧
    headMetric.calc_lambdas_deltas halfExpit () [1, 0] [2, 1] =
      some ([1/2, -1/2], [1/4, 1/4]) ∧
    (((([1/2, -1/2], [1/4, 1/4]) : List ℚ × List ℚ) =
        specLambdasDeltas halfExpit headMetric () [1, 0] [2, 1]) ∧
      ([1/2, -1/2] : List ℚ).length = ([1, 0] : List ℚ).length ∧
      ([1/4, 1/4] : List ℚ).length = ([1, 0] : List ℚ).length) :=
  ⟨rfl, headMetric_lambdas_run,
    c2_lambdas_match_spec headMetric halfExpit () [1, 0] [2, 1]
      ([1/2, -1/2], [1/4, 1/4]) rfl headMetric_lambdas_run⟩

/-- C9 witness: the concrete lambda vector sums to zero. -/
theorem c9_witness :
    headMetric.calc_lambdas_deltas halfExpit () ([1, 0] : List ℚ) [2, 1] =
      some ([1/2, -1/2], [1/4, 1/4]) ∧
    ([1/2, -1/2] : List ℚ).sum = 0 :=
  ⟨headMetric_lambdas_run,
   c9_lambda_sum_zero headMetric halfExpit () [1, 0] [2, 1]
     ([1/2, -1/2], [1/4, 1/4]) headMetric_lambdas_run⟩

/-- C10 witness: the concrete hessian entries are non-negative. -/
theorem c10_witness :
    (∀ x : ℚ, 0 ≤ halfExpit x ∧ halfExpit x ≤ 1) ∧
    headMetric.calc_lambdas_deltas halfExpit () ([1, 0] : List ℚ) [2, 1] =
      some ([1/2, -1/2], [1/4, 1/4]) ∧
    (0 : ℚ) ≤ 1/4 :=
  ⟨fun x => ⟨by norm_num [halfExpit], by norm_num [halfExpit]⟩,
   headMetric_lambdas_run,
   c10_hessian_nonneg headMetric halfExpit () [1, 0] [2, 1]
     ([1/2, -1/2], [1/4, 1/4])
     (fun x => ⟨by norm_num [halfExpit], by norm_num [halfExpit]⟩)
     headMetric_lambdas_run (1/4) (by simp)⟩

end LambdaTheorems

section AggregatorTheorems

variable {Q R : Type} [LinearOrderedField R]

/-- C6: `calc_mean` first validates the contiguity invariant — raising
the Grouping Utility's error unchanged exactly when some qid value
reappears after a different qid has intervened — and otherwise returns
the unweighted arithmetic mean, over the contiguous query groups in
encounter order, of `evaluate_preds` applied to each group's slices,
every group weighted equally. -/
theorem c6_calc_mean (m : Metric Q R) [DecidableEq Q] (qids : List Q)
    (targets preds : List R) :
    (m.calc_mean qids targets preds = Except.error GroupingError.nonContiguous ↔
      ∃ i j k : Fin qids.length, i < j ∧ j < k ∧
        qids.get i = qids.get k ∧ qids.get j ≠ qids.get i) ∧
    (∀ r, m.calc_mean qids targets preds = Except.ok r →
      r = ((get_groups qids).map (fun g =>
          m.evaluate_preds g.1 (sliceArr targets g.2.1 g.2.2)
            (sliceArr preds g.2.1 g.2.2))).sum /
        (((get_groups qids).map (fun g =>
          m.evaluate_preds g.1 (sliceArr targets g.2.1 g.2.2)
            (sliceArr preds g.2.1 g.2.2))).length : R)) := by
  by_cases hc : ContiguousQids qids
  · have hck : check_qids qids = Except.ok () := by
      rw [check_qids, if_pos hc]
    have hcm : m.calc_mean qids targets preds = Except.ok
        (((get_groups qids).map (fun g =>
            m.evaluate_preds g.1 (sliceArr targets g.2.1 g.2.2)
              (sliceArr preds g.2.1 g.2.2))).sum /
          (((get_groups qids).map (fun g =>
            m.evaluate_preds g.1 (sliceArr targets g.2.1 g.2.2)
              (sliceArr preds g.2.1 g.2.2))).length : R)) := by
      unfold Metric.calc_mean
      rw [hck]
    constructor
    · constructor
      · intro h
        rw [hcm] at h
        exact Except.noConfusion h
      · rintro ⟨i, j, k, hij, hjk, hik, hne⟩
        exact absurd (hc i j k hij hjk hik) hne
    · intro r hr
      rw [hcm] at hr
      exact (Except.ok.inj hr).symm
  · have hck : check_qids qids = Except.error GroupingError.nonContiguous := by
      rw [check_qids, if_neg hc]
    have hcm : m.calc_mean qids targets preds =
        Except.error GroupingError.nonContiguous := by
      unfold Metric.calc_mean
      rw [hck]
    constructor
    · constructor
      · intro _
        unfold ContiguousQids at hc
        push_neg at hc
        exact hc
      · intro _
        exact hcm
    · intro r hr
      rw [hcm] at hr
      exact Except.noConfusion hr

/-- C6 witness: a non-contiguous qid list (the value 0 reappears after 1
has intervened) makes `calc_mean` surface the grouping error. -/
theorem c6_witness :
    headMetricN.calc_mean [0, 1, 0] ([1, 2, 3] : List ℚ) [3, 2, 1] =
      Except.error GroupingError.nonContiguous :=
  (c6_calc_mean headMetricN [0, 1, 0] [1, 2, 3] [3, 2, 1]).1.mpr
    ⟨⟨0, by decide⟩, ⟨1, by decide⟩, ⟨2, by decide⟩, by decide, by decide,
     by decide, by decide⟩

theorem groupsAux_replicate [DecidableEq Q] (q : Q) :
    ∀ (k s idx : ℕ), groupsAux (List.replicate k q) q s idx = [(q, s, idx + k)] := by
  intro k
  induction k with
  | zero =>
      intro s idx
      rfl
  | succ k ih =>
      intro s idx
      have hcons : List.replicate (k + 1) q = q :: List.replicate k q := rfl
      rw [hcons]
      have hstep : groupsAux (q :: List.replicate k q) q s idx =
          if q = q then groupsAux (List.replicate k q) q s (idx + 1)
          else (q, s, idx) :: groupsAux (List.replicate k q) q idx (idx + 1) := rfl
      rw [hstep, if_pos rfl, ih s (idx + 1)]
      have harith : idx + 1 + k = idx + (k + 1) := by omega
      rw [harith]

/-- C7: for a corpus whose qids all carry one single qid value,
`calc_mean` equals `evaluate_preds` applied directly to the whole arrays
with that qid. -/
theorem c7_single_query (m : Metric Q R) [DecidableEq Q] (q : Q) (n : ℕ)
    (targets preds : List R) (hn : 0 < n)
    (ht : targets.length = n) (hp : preds.length = n) :
    m.calc_mean (List.replicate n q) targets preds =
      Except.ok (m.evaluate_preds q targets preds) := by
  have hc : ContiguousQids (List.replicate n q) := by
    intro i j k _ _ _
    rw [List.get_replicate, List.get_replicate]
  have hck : check_qids (List.replicate n q) = Except.ok () := by
    rw [check_qids, if_pos hc]
  obtain ⟨n0, rfl⟩ : ∃ n0, n = n0 + 1 := ⟨n - 1, by omega⟩
  have hg : get_groups (List.replicate (n0 + 1) q) = [(q, 0, n0 + 1)] := by
    have hcons : List.replicate (n0 + 1) q = q :: List.replicate n0 q := rfl
    rw [hcons]
    have hgg : get_groups (q :: List.replicate n0 q) =
        groupsAux (List.replicate n0 q) q 0 1 := rfl
    rw [hgg, groupsAux_replicate q n0 0 1]
    have harith : 1 + n0 = n0 + 1 := by omega
    rw [harith]
  have hst : sliceArr targets 0 (n0 + 1) = targets := by
    rw [sliceArr, List.drop_zero, Nat.sub_zero, ← ht, List.take_length]
  have hsp : sliceArr preds 0 (n0 + 1) = preds := by
    rw [sliceArr, List.drop_zero, Nat.sub_zero, ← hp, List.take_length]
  unfold Metric.calc_mean
  rw [hck, hg]
  simp only [List.map_cons, List.map_nil, hst, hsp, List.sum_cons, List.sum_nil,
    List.length_cons, List.length_nil]
  rw [add_zero]
  norm_num

/-- C7 witness: a two-row single-query corpus. -/
theorem c7_witness :
    0 < 2 ∧
    headMetricN.calc_mean (List.replicate 2 7) ([1, 2] : List ℚ) [3, 2] =
      Except.ok (headMetricN.evaluate_preds 7 [1, 2] [3, 2]) :=
  ⟨by decide, c7_single_query headMetricN 7 2 [1, 2] [3, 2] (by decide) rfl rfl⟩

end AggregatorTheorems

section RandomTheorems

variable {Q R : Type} [LinearOrderedField R]

theorem length_shuffleScores (m : Metric Q R) (qid : Q) (sh : ℕ → List R → List R) :
    ∀ (k s : ℕ) (t : List R), (shuffleScores m qid sh k s t).length = k := by
  intro k
  induction k with
  | zero =>
      intro s t
      rfl
  | succ k ih =>
      intro s t
      have hstep : shuffleScores m qid sh (k + 1) s t =
          m.evaluate qid (sh s t) :: shuffleScores m qid sh k (s + 1) (sh s t) := rfl
      rw [hstep, List.length_cons, ih (s + 1) (sh s t)]

theorem shuffleScores_mem_perm (m : Metric Q R) (qid : Q) (sh : ℕ → List R → List R)
    (targets : List R) (hsh : ∀ n l, List.Perm (sh n l) l) :
    ∀ (k s : ℕ) (t : List R), List.Perm t targets →
      ∀ x ∈ shuffleScores m qid sh k s t,
        ∃ u, List.Perm u targets ∧ x = m.evaluate qid u := by
  intro k
  induction k with
  | zero =>
      intro s t _ x hx
      exact absurd hx (List.not_mem_nil x)
  | succ k ih =>
      intro s t ht x hx
      have hstep : shuffleScores m qid sh (k + 1) s t =
          m.evaluate qid (sh s t) :: shuffleScores m qid sh k (s + 1) (sh s t) := rfl
      rw [hstep] at hx
      rcases List.mem_cons.mp hx with rfl | hx2
      · exact ⟨sh s t, (hsh s t).trans ht, rfl⟩
      · exact ih (s + 1) (sh s t) ((hsh s t).trans ht) x hx2

/-- C8: `calc_random_ev` returns the arithmetic mean of
`evaluate(qid, shuffled)` over exactly 100 successive shuffles of
`targets` drawn from the injected shuffle stream (the modelled seedable
random source, so the result is reproducible given the stream), each
shuffled list being a permutation of `targets`, and the caller's
`targets` array (shuffling happens on the `np.copy`) is returned
unmodified. -/
theorem c8_calc_random_ev (m : Metric Q R) (sh : ℕ → List R → List R) (qid : Q)
    (targets : List R) (hsh : ∀ n l, List.Perm (sh n l) l) :
    (shuffleScores m qid sh 100 0 targets).length = 100 ∧
    (m.calc_random_ev sh qid targets).1 =
      (shuffleScores m qid sh 100 0 targets).sum / (100 : R) ∧
    (∀ x ∈ shuffleScores m qid sh 100 0 targets,
      ∃ u, List.Perm u targets ∧ x = m.evaluate qid u) ∧
    (m.calc_random_ev sh qid targets).2 = targets := by
  have hlen := length_shuffleScores m qid sh 100 0 targets
  refine ⟨hlen, ?_, ?_, rfl⟩
  · have hshow : (m.calc_random_ev sh qid targets).1 =
        (shuffleScores m qid sh 100 0 targets).sum /
          ((shuffleScores m qid sh 100 0 targets).length : R) := rfl
    rw [hshow, hlen]
    norm_num
  · exact shuffleScores_mem_perm m qid sh targets hsh 100 0 targets (List.Perm.refl targets)

/-- C8 witness: a concrete run with the reversal shuffle stream, which
permutes the working array at every step. -/
theorem c8_witness :
    (shuffleScores headMetric () revShuffle 100 0 ([1, 2] : List ℚ)).length = 100 :=
  (c8_calc_random_ev headMetric revShuffle () [1, 2] (fun n l => l.reverse_perm)).1

end RandomTheorems

end Pyltr
